import Mathlib

/-!
Verification of the combinatorial search-and-scoring engine of the
`magicbooks` repository (files `magicbooks.py` and `main.py`).

The embedding below translates the core of `main()`:

* a `Book` is the record `[idx, title, chapters]` built by the loader;
* for a combination `combo`, `data = tuple(zip(*combo))[2]` is the list of
  chapter strings, `words = ("".join(_) for _ in zip(*data))` is the list of
  per-position concatenated words, `counts = collections.Counter(words)`,
  `reps = sorted((_ for _ in counts.values() if _ > 1), reverse=True)` and
  `score = sum(reps) - len(reps)`;
* combinations are enumerated by `itertools.combinations(books, k)`;
* ranking is `sorted(combos)[:args.list]` over tuples `(score, reps, combo)`
  (variant `magicbooks.py`) or `(score, chaps, combo)` (variant `main.py`),
  compared by Python tuple/list lexicographic comparison.
-/

namespace MagicBooks

/-- A book record as produced by the library loader: 1-based ordinal,
display title, and the per-chapter token string. -/
structure Book where
  idx : Nat
  title : String
  chapters : List Char
deriving DecidableEq

/-! ### The word matrix (magicbooks.py lines 137-138, main.py lines 188-189)

`zip(*data)` truncates to the shortest chapter string, producing one column
per chapter position; each column is joined into a word. -/

/-- Length of `zip(*data)`: the minimum length of the rows (0 for no rows),
as Python's `zip` truncates to the shortest iterable. -/
def pyMinLen : List (List Char) → Nat
  | [] => 0
  | s :: rest => rest.foldl (fun m t => min m t.length) s.length

/-- The column of tokens at chapter position `p`: one token per member book,
in member order.  This is element `p` of `zip(*data)`. -/
def colsAt (data : List (List Char)) (p : Nat) : List Char :=
  data.map (fun s => s.getD p ' ')

/-- `words`: for each chapter position, the concatenation of the member
books' tokens at that position (`"".join(_) for _ in zip(*data)`). -/
def wordsOf (data : List (List Char)) : List (List Char) :=
  (List.range (pyMinLen data)).map (colsAt data)

/-! ### Counter, reps and score (magicbooks.py lines 139-142) -/

/-- The multiplicities recorded by `collections.Counter(words)`: for every
distinct word, the number of positions at which it occurs. -/
def counterValues (ws : List (List Char)) : List Nat :=
  ws.dedup.map (fun w => List.count w ws)

/-- `reps = sorted((_ for _ in counts.values() if _ > 1), reverse=True)`. -/
def reps (ws : List (List Char)) : List Nat :=
  List.insertionSort (· ≥ ·) ((counterValues ws).filter (fun v => 1 < v))

/-- `score = sum(reps) - len(reps)`. -/
def score (ws : List (List Char)) : Nat :=
  (reps ws).sum - (reps ws).length

/-! ### Spec-side formulations -/

/-- Token multiplicities within a single positional column, following §4.2
of the spec: `counts[token] = number of member Books whose token at p equals
token`. -/
def tokenCounts (col : List Char) : List Nat :=
  col.dedup.map (fun t => List.count t col)

/-- The per-token score of spec §4.2: for each position, sum
`(group size - 1)` over all collision groups of size `> 1`, then sum over
all positions.  This definition follows the spec's words, for comparison
with the implemented `score`. -/
def specTokenScore (data : List (List Char)) (c : Nat) : Nat :=
  ((List.range c).map (fun p =>
    (((tokenCounts (colsAt data p)).filter (fun v => 1 < v)).map
      (fun v => v - 1)).sum)).sum

/-- The direct per-position-word collision formulation: for every group of
chapter positions sharing an identical concatenated word, contribute
`(group size - 1)`. -/
def specWordScore (ws : List (List Char)) : Nat :=
  (((counterValues ws).filter (fun v => 1 < v)).map (fun v => v - 1)).sum

/-! ### Arithmetic helper lemmas about the score -/

theorem length_le_sum_of_one_le (l : List Nat) (h : ∀ v ∈ l, 1 ≤ v) :
    l.length ≤ l.sum := by
  induction l with
  | nil => simp
  | cons a t ih =>
    have ha : 1 ≤ a := h a (List.mem_cons_self a t)
    have ht := ih (fun v hv => h v (List.mem_cons_of_mem a hv))
    simp only [List.length_cons, List.sum_cons]
    omega

theorem sum_map_sub_one (l : List Nat) (h : ∀ v ∈ l, 1 ≤ v) :
    (l.map (fun v => v - 1)).sum = l.sum - l.length := by
  induction l with
  | nil => rfl
  | cons a t ih =>
    have ha : 1 ≤ a := h a (List.mem_cons_self a t)
    have ht : ∀ v ∈ t, 1 ≤ v := fun v hv => h v (List.mem_cons_of_mem a hv)
    have hlen : t.length ≤ t.sum := length_le_sum_of_one_le t ht
    simp only [List.map_cons, List.sum_cons, List.length_cons, ih ht]
    omega

theorem sum_eq_length_of_all_one (l : List Nat) (h : ∀ v ∈ l, v = 1) :
    l.sum = l.length := by
  induction l with
  | nil => rfl
  | cons a t ih =>
    have ha := h a (List.mem_cons_self a t)
    have ht := ih (fun v hv => h v (List.mem_cons_of_mem a hv))
    simp only [List.sum_cons, List.length_cons]
    omega

theorem filter_sum_split (p : Nat → Bool) (l : List Nat) :
    (l.filter p).sum + (l.filter (fun v => !(p v))).sum = l.sum := by
  induction l with
  | nil => rfl
  | cons a t ih =>
    by_cases hp : p a
    · simp [List.filter_cons, hp, ← ih]
      omega
    · simp [List.filter_cons, hp, ← ih]
      omega

theorem filter_length_split (p : Nat → Bool) (l : List Nat) :
    (l.filter p).length + (l.filter (fun v => !(p v))).length = l.length := by
  induction l with
  | nil => rfl
  | cons a t ih =>
    by_cases hp : p a
    · simp [List.filter_cons, hp, ← ih]
      omega
    · simp [List.filter_cons, hp, ← ih]
      omega

theorem count_beq_bridge (w : List Char) (ws : List (List Char)) :
    @List.count _ List.instBEq w ws = @List.count _ instBEqOfDecidableEq w ws := by
  unfold List.count
  apply List.countP_congr
  intro a _
  rw [Bool.eq_iff_iff]
  simp [beq_iff_eq]

theorem counterValues_sum (ws : List (List Char)) :
    (counterValues ws).sum = ws.length := by
  have h := List.sum_map_count_dedup_eq_length ws
  unfold counterValues
  rw [show (fun w => List.count w ws) = (fun x => @List.count _ instBEqOfDecidableEq x ws)
    from funext fun w => count_beq_bridge w ws]
  exact h

theorem counterValues_length (ws : List (List Char)) :
    (counterValues ws).length = ws.dedup.length := by
  simp [counterValues]

theorem counterValues_pos (ws : List (List Char)) :
    ∀ v ∈ counterValues ws, 1 ≤ v := by
  intro v hv
  rcases List.mem_map.mp hv with ⟨w, hw, rfl⟩
  have hmem : w ∈ ws := List.mem_dedup.mp hw
  have := List.count_pos_iff.mpr hmem
  omega

/-- The filtered multiplicities actually summed by the implementation. -/
def bigCounts (ws : List (List Char)) : List Nat :=
  (counterValues ws).filter (fun v => 1 < v)

theorem reps_perm (ws : List (List Char)) : List.Perm (reps ws) (bigCounts ws) :=
  List.perm_insertionSort _ _

theorem bigCounts_two_le (ws : List (List Char)) :
    ∀ v ∈ bigCounts ws, 2 ≤ v := by
  intro v hv
  have := (List.mem_filter.mp hv).2
  simp only [decide_eq_true_eq] at this
  omega

theorem score_eq_sub (ws : List (List Char)) :
    score ws = (bigCounts ws).sum - (bigCounts ws).length := by
  unfold score
  rw [(reps_perm ws).sum_eq, (reps_perm ws).length_eq]

theorem filter_big_aux (cv : List Nat) (hpos : ∀ v ∈ cv, 1 ≤ v) :
    (cv.filter (fun v => 1 < v)).sum - (cv.filter (fun v => 1 < v)).length
      = cv.sum - cv.length := by
  have hsplit := filter_sum_split (fun v => 1 < v) cv
  have hlsplit := filter_length_split (fun v => 1 < v) cv
  have hones : (cv.filter (fun v => !(decide (1 < v)))).sum
      = (cv.filter (fun v => !(decide (1 < v)))).length := by
    apply sum_eq_length_of_all_one
    intro v hv
    rcases List.mem_filter.mp hv with ⟨hmem, hsmall⟩
    have h1 := hpos v hmem
    simp only [Bool.not_eq_true', decide_eq_false_iff_not] at hsmall
    omega
  have hfl : (cv.filter (fun v => 1 < v)).length ≤ (cv.filter (fun v => 1 < v)).sum := by
    apply length_le_sum_of_one_le
    intro v hv
    rcases List.mem_filter.mp hv with ⟨_, hbig⟩
    simp only [decide_eq_true_eq] at hbig
    omega
  omega

/-- The implemented score counts total word length minus the number of
distinct words. -/
theorem score_eq_length_sub_dedup (ws : List (List Char)) :
    score ws = ws.length - ws.dedup.length := by
  rw [score_eq_sub]
  unfold bigCounts
  rw [filter_big_aux (counterValues ws) (counterValues_pos ws),
    counterValues_sum, counterValues_length]

theorem dedup_length_le (ws : List (List Char)) :
    ws.dedup.length ≤ ws.length :=
  (List.dedup_sublist ws).length_le

/-- The implemented score agrees with the per-position-word collision
formulation: each group of positions sharing a word contributes its size
minus one. -/
theorem score_eq_specWordScore (ws : List (List Char)) :
    score ws = specWordScore ws := by
  have h2 : ∀ v ∈ (counterValues ws).filter (fun v => 1 < v), 1 ≤ v := by
    intro v hv
    have := bigCounts_two_le ws v hv
    omega
  rw [score_eq_sub]
  unfold specWordScore bigCounts
  rw [sum_map_sub_one _ h2]

/-- `score ws = 0` iff no two positions share the same word. -/
theorem score_eq_zero_iff_nodup (ws : List (List Char)) :
    score ws = 0 ↔ ws.Nodup := by
  rw [score_eq_length_sub_dedup]
  constructor
  · intro h
    have hle := dedup_length_le ws
    have : ws.dedup.length = ws.length := by omega
    have := (List.dedup_sublist ws).eq_of_length this
    exact List.dedup_eq_self.mp this
  · intro h
    rw [List.dedup_eq_self.mpr h]
    omega

/-! ### Combination enumeration (itertools.combinations, magicbooks.py line 134) -/

/-- `itertools.combinations(l, k)`: all size-`k` subsequences of `l`, in
index-ascending lexicographic order. -/
def combinations {α : Type} : Nat → List α → List (List α)
  | 0, _ => [[]]
  | _ + 1, [] => []
  | k + 1, x :: xs => ((combinations k xs).map (fun s => x :: s)) ++ combinations (k + 1) xs

theorem length_combinations {α : Type} :
    ∀ (k : Nat) (l : List α), (combinations k l).length = l.length.choose k := by
  intro k l
  induction l generalizing k with
  | nil =>
    cases k with
    | zero => simp [combinations]
    | succ k => simp [combinations, Nat.choose]
  | cons x xs ih =>
    cases k with
    | zero => simp [combinations]
    | succ k =>
      simp only [combinations, List.length_append, List.length_map, ih,
        List.length_cons, Nat.choose_succ_succ]

theorem mem_combinations {α : Type} :
    ∀ (k : Nat) (l s : List α), s ∈ combinations k l ↔ (s.Sublist l ∧ s.length = k) := by
  intro k l
  induction l generalizing k with
  | nil =>
    intro s
    cases k with
    | zero =>
      simp only [combinations, List.mem_singleton, List.sublist_nil]
      constructor
      · rintro rfl
        exact ⟨rfl, rfl⟩
      · rintro ⟨rfl, _⟩
        rfl
    | succ k =>
      simp only [combinations, List.not_mem_nil, false_iff, not_and, List.sublist_nil]
      rintro rfl
      simp
  | cons x xs ih =>
    intro s
    cases k with
    | zero =>
      simp only [combinations, List.mem_singleton]
      constructor
      · rintro rfl
        exact ⟨List.nil_sublist _, rfl⟩
      · rintro ⟨_, hlen⟩
        exact List.length_eq_zero.mp hlen
    | succ k =>
      simp only [combinations, List.mem_append, List.mem_map]
      constructor
      · rintro (⟨t, ht, rfl⟩ | hs)
        · rcases (ih k t).mp ht with ⟨hsub, hlen⟩
          exact ⟨hsub.cons₂ x, by simp [hlen]⟩
        · rcases (ih (k + 1) s).mp hs with ⟨hsub, hlen⟩
          exact ⟨hsub.cons x, hlen⟩
      · rintro ⟨hsub, hlen⟩
        rcases List.sublist_cons_iff.mp hsub with h | ⟨r, rfl, hr⟩
        · exact Or.inr ((ih (k + 1) s).mpr ⟨h, hlen⟩)
        · refine Or.inl ⟨r, (ih k r).mpr ⟨hr, ?_⟩, rfl⟩
          simpa using hlen

theorem nodup_combinations {α : Type} :
    ∀ (k : Nat) (l : List α), l.Nodup → (combinations k l).Nodup := by
  intro k l
  induction l generalizing k with
  | nil =>
    intro _
    cases k with
    | zero => simp [combinations]
    | succ k => simp [combinations]
  | cons x xs ih =>
    intro hnd
    have hx : x ∉ xs := (List.nodup_cons.mp hnd).1
    have hxs : xs.Nodup := (List.nodup_cons.mp hnd).2
    cases k with
    | zero => simp [combinations]
    | succ k =>
      simp only [combinations]
      rw [List.nodup_append]
      refine ⟨(ih k hxs).map (fun a b h => by injection h), ih (k + 1) hxs, ?_⟩
      intro s hs hs2
      rcases List.mem_map.mp hs with ⟨u, _, rfl⟩
      have hsub : (x :: u).Sublist xs := ((mem_combinations (k + 1) xs _).mp hs2).1
      exact hx (hsub.subset (List.mem_cons_self x u))

theorem combinations_self {α : Type} :
    ∀ (l : List α), combinations l.length l = [l] := by
  intro l
  induction l with
  | nil => rfl
  | cons x xs ih =>
    have hempty : combinations (xs.length + 1) xs = [] := by
      have hlen := length_combinations (xs.length + 1) xs
      rw [Nat.choose_eq_zero_of_lt (Nat.lt_succ_self _)] at hlen
      exact List.length_eq_zero.mp hlen
    simp [combinations, ih, hempty]

theorem pairwise_lex_combinations {α : Type} {r : α → α → Prop} :
    ∀ (k : Nat) (l : List α), l.Pairwise r →
      (combinations k l).Pairwise (List.Lex r) := by
  intro k l
  induction l generalizing k with
  | nil =>
    intro _
    cases k with
    | zero => simp [combinations]
    | succ k => simp [combinations]
  | cons x xs ih =>
    intro hp
    have hhead : ∀ y ∈ xs, r x y := fun y hy => (List.pairwise_cons.mp hp).1 y hy
    have htail : xs.Pairwise r := (List.pairwise_cons.mp hp).2
    cases k with
    | zero => simp [combinations]
    | succ k =>
      simp only [combinations]
      rw [List.pairwise_append]
      refine ⟨?_, ih (k + 1) htail, ?_⟩
      · rw [List.pairwise_map]
        exact (ih k htail).imp (fun h => List.Lex.cons h)
      · intro s hs t ht
        rcases List.mem_map.mp hs with ⟨u, _, rfl⟩
        rcases (mem_combinations (k + 1) xs t).mp ht with ⟨hsub, hlen⟩
        cases t with
        | nil => simp at hlen
        | cons y t' =>
          exact List.Lex.rel (hhead y (hsub.subset (List.mem_cons_self y t')))

theorem combinations_map {α β : Type} (f : α → β) :
    ∀ (k : Nat) (l : List α),
      combinations k (l.map f) = (combinations k l).map (List.map f) := by
  intro k l
  induction l generalizing k with
  | nil =>
    cases k with
    | zero => rfl
    | succ k => rfl
  | cons x xs ih =>
    cases k with
    | zero => rfl
    | succ k =>
      simp only [List.map_cons, combinations, ih, List.map_append, List.map_map]
      congr 1

theorem sublist_eq_of_mem_iff {α : Type} :
    ∀ (l s t : List α), l.Nodup → s.Sublist l → t.Sublist l →
      (∀ a, a ∈ s ↔ a ∈ t) → s = t := by
  intro l
  induction l with
  | nil =>
    intro s t _ hs ht _
    rw [List.sublist_nil.mp hs, List.sublist_nil.mp ht]
  | cons x xs ih =>
    intro s t hnd hs ht hiff
    have hx : x ∉ xs := (List.nodup_cons.mp hnd).1
    have hxs : xs.Nodup := (List.nodup_cons.mp hnd).2
    cases hs with
    | cons _ hs' =>
      cases ht with
      | cons _ ht' => exact ih s t hxs hs' ht' hiff
      | cons₂ _ ht' =>
        exfalso
        rename_i t'
        have hxmem : x ∈ s := (hiff x).mpr (List.mem_cons_self x t')
        exact hx (hs'.subset hxmem)
    | cons₂ _ hs' =>
      cases ht with
      | cons _ ht' =>
        exfalso
        rename_i s'
        have hxmem : x ∈ t := (hiff x).mp (List.mem_cons_self x s')
        exact hx (ht'.subset hxmem)
      | cons₂ _ ht' =>
        rename_i s' t'
        congr 1
        apply ih s' t' hxs hs' ht'
        intro a
        constructor
        · intro ha
          have := (hiff a).mp (List.mem_cons_of_mem x ha)
          rcases List.mem_cons.mp this with rfl | h
          · exact absurd (hs'.subset ha) hx
          · exact h
        · intro ha
          have := (hiff a).mpr (List.mem_cons_of_mem x ha)
          rcases List.mem_cons.mp this with rfl | h
          · exact absurd (ht'.subset ha) hx
          · exact h

theorem lex_map {α β : Type} {r : α → α → Prop} {r' : β → β → Prop} (g : α → β)
    (hg : ∀ a b, r a b → r' (g a) (g b)) :
    ∀ {s t : List α}, List.Lex r s t → List.Lex r' (s.map g) (t.map g) := by
  intro s t h
  induction h with
  | nil => exact List.Lex.nil
  | cons _ ih => exact List.Lex.cons ih
  | rel hr => exact List.Lex.rel (hg _ _ hr)

/-! ### Python comparison semantics

`sorted(combos)` compares tuples `(score, reps, combo)` lexicographically;
lists are compared element-wise with the shorter strict prefix smaller;
integers by value; strings by code points.  We model comparisons as
`Ordering`-valued functions. -/

/-- Integer comparison. -/
def cmpNat (a b : Nat) : Ordering :=
  if a < b then .lt else if b < a then .gt else .eq

/-- Character comparison by code point. -/
def cmpChar (a b : Char) : Ordering :=
  cmpNat a.toNat b.toNat

/-- Python list comparison: first differing element decides; a strict
prefix is smaller. -/
def cmpList {α : Type} (c : α → α → Ordering) : List α → List α → Ordering
  | [], [] => .eq
  | [], _ :: _ => .lt
  | _ :: _, [] => .gt
  | a :: as, b :: bs => (c a b).then (cmpList c as bs)

/-- Python tuple comparison (pairwise lexicographic). -/
def cmpProd {α β : Type} (ca : α → α → Ordering) (cb : β → β → Ordering)
    (x y : α × β) : Ordering :=
  (ca x.1 y.1).then (cb x.2 y.2)

/-- String comparison (code-point lexicographic, as in Python). -/
def cmpStr (s t : String) : Ordering :=
  cmpList cmpChar s.data t.data

/-- The components of a book record `[idx, title, chapters]`, in comparison
order. -/
def bookKey (b : Book) : Nat × String × List Char :=
  (b.idx, b.title, b.chapters)

/-- Comparison of two book records, as Python compares the lists
`[idx, title, chapters]`. -/
def cmpBook (x y : Book) : Ordering :=
  cmpProd cmpNat (cmpProd cmpStr (cmpList cmpChar)) (bookKey x) (bookKey y)

/-- A comparator that decides a strict total order: `eq` means equality,
swapping arguments swaps the verdict, and `lt` is transitive. -/
structure LawfulCmp {α : Type} (cmp : α → α → Ordering) : Prop where
  eq_iff : ∀ a b, cmp a b = .eq ↔ a = b
  swap_eq : ∀ a b, cmp b a = (cmp a b).swap
  lt_trans : ∀ {a b c}, cmp a b = .lt → cmp b c = .lt → cmp a c = .lt

theorem cmpList_nil_nil {α : Type} (c : α → α → Ordering) : cmpList c [] [] = .eq := rfl

theorem cmpList_nil_cons {α : Type} (c : α → α → Ordering) (b : α) (bs : List α) :
    cmpList c [] (b :: bs) = .lt := rfl

theorem cmpList_cons_nil {α : Type} (c : α → α → Ordering) (a : α) (as : List α) :
    cmpList c (a :: as) [] = .gt := rfl

theorem cmpList_cons_cons {α : Type} (c : α → α → Ordering) (a b : α) (as bs : List α) :
    cmpList c (a :: as) (b :: bs) = (c a b).then (cmpList c as bs) := rfl

theorem then_eq_eq (o p : Ordering) : o.then p = .eq ↔ o = .eq ∧ p = .eq := by
  cases o <;> simp [Ordering.then]

theorem then_eq_lt (o p : Ordering) : o.then p = .lt ↔ o = .lt ∨ (o = .eq ∧ p = .lt) := by
  cases o <;> simp [Ordering.then]

theorem then_swap (o p : Ordering) : (o.then p).swap = o.swap.then p.swap := by
  cases o <;> cases p <;> rfl

theorem lawful_cmpNat : LawfulCmp cmpNat := by
  constructor
  · intro a b
    unfold cmpNat
    split_ifs <;> simp_all <;> omega
  · intro a b
    unfold cmpNat
    split_ifs <;> simp_all [Ordering.swap] <;> omega
  · intro a b c hab hbc
    unfold cmpNat at *
    split_ifs at * <;> simp_all <;> omega

theorem lawful_onKey {α β : Type} (key : α → β) (hinj : Function.Injective key)
    {c : β → β → Ordering} (hc : LawfulCmp c) :
    LawfulCmp (fun x y => c (key x) (key y)) := by
  constructor
  · intro a b
    rw [hc.eq_iff]
    exact ⟨fun h => hinj h, fun h => by rw [h]⟩
  · intro a b
    exact hc.swap_eq _ _
  · intro a b d hab hbd
    exact hc.lt_trans hab hbd

theorem char_toNat_injective : Function.Injective Char.toNat := by
  intro a b h
  exact Char.ext (UInt32.toNat.inj h)

theorem lawful_cmpChar : LawfulCmp cmpChar := by
  have := lawful_onKey Char.toNat char_toNat_injective lawful_cmpNat
  exact this

theorem cmpList_eq_iff {α : Type} {c : α → α → Ordering} (hc : LawfulCmp c) :
    ∀ s t : List α, cmpList c s t = .eq ↔ s = t := by
  intro s
  induction s with
  | nil =>
    intro t
    cases t with
    | nil => simp [cmpList]
    | cons b bs => simp [cmpList]
  | cons a as ih =>
    intro t
    cases t with
    | nil => simp [cmpList]
    | cons b bs =>
      simp only [cmpList_cons_cons, then_eq_eq, hc.eq_iff, ih bs, List.cons.injEq]

theorem cmpList_swap {α : Type} {c : α → α → Ordering} (hc : LawfulCmp c) :
    ∀ s t : List α, cmpList c t s = (cmpList c s t).swap := by
  intro s
  induction s with
  | nil =>
    intro t
    cases t with
    | nil => rfl
    | cons b bs => rfl
  | cons a as ih =>
    intro t
    cases t with
    | nil => rfl
    | cons b bs =>
      rw [cmpList_cons_cons, cmpList_cons_cons, then_swap, ← hc.swap_eq, ← ih bs]

theorem cmpList_lt_trans {α : Type} {c : α → α → Ordering} (hc : LawfulCmp c) :
    ∀ {s t u : List α}, cmpList c s t = .lt → cmpList c t u = .lt →
      cmpList c s u = .lt := by
  intro s
  induction s with
  | nil =>
    intro t u hst htu
    cases t with
    | nil => simp [cmpList_nil_nil] at hst
    | cons b bs =>
      cases u with
      | nil => simp [cmpList_cons_nil] at htu
      | cons d ds => simp [cmpList_nil_cons]
  | cons a as ih =>
    intro t u hst htu
    cases t with
    | nil => simp [cmpList_cons_nil] at hst
    | cons b bs =>
      cases u with
      | nil => simp [cmpList_cons_nil] at htu
      | cons d ds =>
        simp only [cmpList_cons_cons, then_eq_lt] at hst htu ⊢
        rcases hst with hab | ⟨hab, hrest⟩
        · rcases htu with hbd | ⟨hbd, hrest'⟩
          · exact Or.inl (hc.lt_trans hab hbd)
          · rw [hc.eq_iff] at hbd
            subst hbd
            exact Or.inl hab
        · rw [hc.eq_iff] at hab
          subst hab
          rcases htu with hbd | ⟨hbd, hrest'⟩
          · exact Or.inl hbd
          · rw [hc.eq_iff] at hbd
            subst hbd
            exact Or.inr ⟨(hc.eq_iff _ _).mpr rfl, ih hrest hrest'⟩

theorem lawful_cmpList {α : Type} {c : α → α → Ordering} (hc : LawfulCmp c) :
    LawfulCmp (cmpList c) :=
  ⟨cmpList_eq_iff hc, cmpList_swap hc, fun hab hbc => cmpList_lt_trans hc hab hbc⟩

theorem lawful_cmpProd {α β : Type} {ca : α → α → Ordering} {cb : β → β → Ordering}
    (ha : LawfulCmp ca) (hb : LawfulCmp cb) : LawfulCmp (cmpProd ca cb) := by
  constructor
  · intro x y
    simp only [cmpProd, then_eq_eq, ha.eq_iff, hb.eq_iff, Prod.ext_iff]
  · intro x y
    unfold cmpProd
    rw [then_swap, ← ha.swap_eq, ← hb.swap_eq]
  · intro x y z hxy hyz
    simp only [cmpProd, then_eq_lt] at hxy hyz ⊢
    rcases hxy with h1 | ⟨h1, h2⟩
    · rcases hyz with h3 | ⟨h3, h4⟩
      · exact Or.inl (ha.lt_trans h1 h3)
      · rw [ha.eq_iff] at h3
        rw [← h3]
        exact Or.inl h1
    · rw [ha.eq_iff] at h1
      rcases hyz with h3 | ⟨h3, h4⟩
      · rw [h1]
        exact Or.inl h3
      · rw [ha.eq_iff] at h3
        refine Or.inr ⟨?_, hb.lt_trans h2 h4⟩
        rw [h1, h3]
        exact (ha.eq_iff _ _).mpr rfl

theorem string_data_injective : Function.Injective String.data := by
  intro s t h
  exact String.ext h

theorem lawful_cmpStr : LawfulCmp cmpStr := by
  have := lawful_onKey String.data string_data_injective (lawful_cmpList lawful_cmpChar)
  exact this

theorem bookKey_injective : Function.Injective bookKey := by
  intro x y h
  cases x
  cases y
  simpa [bookKey, Prod.ext_iff] using h

theorem lawful_cmpBook : LawfulCmp cmpBook := by
  have := lawful_onKey bookKey bookKey_injective
    (lawful_cmpProd lawful_cmpNat (lawful_cmpProd lawful_cmpStr (lawful_cmpList lawful_cmpChar)))
  exact this

theorem LawfulCmp.cmp_refl {α : Type} {cmp : α → α → Ordering} (h : LawfulCmp cmp)
    (a : α) : cmp a a = .eq :=
  (h.eq_iff a a).mpr rfl

theorem LawfulCmp.gt_iff {α : Type} {cmp : α → α → Ordering} (h : LawfulCmp cmp)
    (a b : α) : cmp a b = .gt ↔ cmp b a = .lt := by
  rw [h.swap_eq a b]
  cases cmp a b <;> simp [Ordering.swap]

theorem LawfulCmp.le_total {α : Type} {cmp : α → α → Ordering} (h : LawfulCmp cmp)
    (a b : α) : cmp a b ≠ .gt ∨ cmp b a ≠ .gt := by
  rw [h.swap_eq a b]
  cases cmp a b <;> simp [Ordering.swap]

theorem LawfulCmp.not_gt_cases {α : Type} {cmp : α → α → Ordering} (h : LawfulCmp cmp)
    {a b : α} (hab : cmp a b ≠ .gt) : cmp a b = .lt ∨ a = b := by
  rcases heq : cmp a b with _ | _ | _
  · exact Or.inl rfl
  · exact Or.inr ((h.eq_iff a b).mp heq)
  · exact absurd heq hab

theorem LawfulCmp.le_trans {α : Type} {cmp : α → α → Ordering} (h : LawfulCmp cmp)
    {a b c : α} (hab : cmp a b ≠ .gt) (hbc : cmp b c ≠ .gt) : cmp a c ≠ .gt := by
  rcases h.not_gt_cases hab with h1 | rfl
  · rcases h.not_gt_cases hbc with h2 | rfl
    · rw [h.lt_trans h1 h2]
      simp
    · rw [h1]
      simp
  · exact hbc

/-! ### Scored entries and ranking (magicbooks.py lines 133-153, main.py 184-209) -/

/-- `data = tuple(zip(*combo))[2]`: the chapter strings of the combination's
member books, in member order. -/
def chaptersData (combo : List Book) : List (List Char) :=
  combo.map Book.chapters

/-- The score of one combination. -/
def scoreOf (combo : List Book) : Nat :=
  score (wordsOf (chaptersData combo))

/-- The `reps` diagnostic of one combination (variant `magicbooks.py`). -/
def repsKey (combo : List Book) : List Nat :=
  reps (wordsOf (chaptersData combo))

/-- The 1-based chapter positions at which word `w` occurs (main.py line
191-192: `ewords = tuple((_i+1, _w) for _i, _w in enumerate(words))`). -/
def positionsOf (ws : List (List Char)) (w : List Char) : List Nat :=
  ((List.range ws.length).filter (fun i => ws.getD i [] = w)).map (fun i => i + 1)

/-- `chaps` (main.py lines 192-194): for every word occurring at more than
one position, the list of its 1-based positions; the groups sorted
lexicographically. -/
def chapsOf (ws : List (List Char)) : List (List Nat) :=
  List.insertionSort (fun a b => cmpList cmpNat a b ≠ .gt)
    ((ws.dedup.filter (fun w => 1 < List.count w ws)).map (positionsOf ws))

/-- The `chaps` diagnostic of one combination (variant `main.py`). -/
def chapsKey (combo : List Book) : List (List Nat) :=
  chapsOf (wordsOf (chaptersData combo))

/-- Comparison of ranked tuples `(score, key, combo)` as Python compares
them in `sorted(combos)`. -/
def cmpEntry {κ : Type} (cmpK : κ → κ → Ordering) :
    Nat × κ × List Book → Nat × κ × List Book → Ordering :=
  cmpProd cmpNat (cmpProd cmpK (cmpList cmpBook))

/-- The sorting relation used by `sorted(combos)`. -/
def entryLE {κ : Type} (cmpK : κ → κ → Ordering)
    (e f : Nat × κ × List Book) : Prop :=
  cmpEntry cmpK e f ≠ .gt

instance {κ : Type} (cmpK : κ → κ → Ordering) : DecidableRel (entryLE cmpK) :=
  fun e f => by unfold entryLE; infer_instance

/-- The tuple appended per combination: `(score, key, combo)`. -/
def scoreEntry {κ : Type} (keyF : List Book → κ) (combo : List Book) :
    Nat × κ × List Book :=
  (scoreOf combo, keyF combo, combo)

/-- `sorted(combos)[:args.list]`. -/
def rankedBy {κ : Type} (cmpK : κ → κ → Ordering) (keyF : List Book → κ)
    (books : List Book) (k m : Nat) : List (Nat × κ × List Book) :=
  (List.insertionSort (entryLE cmpK)
    ((combinations k books).map (scoreEntry keyF))).take m

/-- The ranked output of variant `magicbooks.py` (secondary key `reps`). -/
def rankedList1 (books : List Book) (k m : Nat) : List (Nat × List Nat × List Book) :=
  rankedBy (cmpList cmpNat) repsKey books k m

/-- The ranked output of variant `main.py` (secondary key `chaps`). -/
def rankedList2 (books : List Book) (k m : Nat) : List (Nat × List (List Nat) × List Book) :=
  rankedBy (cmpList (cmpList cmpNat)) chapsKey books k m

/-! ### The scoring run with its error checks (magicbooks.py lines 103-131) -/

/-- The two fatal error conditions of a scoring run. -/
inductive RunError where
  | insufficientBooks
  | chapterLength
deriving DecidableEq

/-- `books = tuple(_[:2] + [_[2][:args.chapters]] for _ in books)`: truncate
each book's chapter data to the configured chapter count. -/
def truncateBooks (c : Nat) (books : List Book) : List Book :=
  books.map (fun b => { b with chapters := b.chapters.take c })

/-- Randomize mode: each book's chapters are synthesized as exactly
`chapters` draws from the token alphabet
(`"".join(random.choice(args.tokens) for _ in range(args.chapters))`);
`choice i j` is the random draw for book `i`, chapter `j`. -/
def randomizeBooks (c : Nat) (choice : Nat → Nat → Char) (books : List Book) : List Book :=
  books.mapIdx (fun i b => { b with chapters := (List.range c).map (choice i) })

/-- The scoring run of `main()` (variant `magicbooks.py`): the
insufficient-books check (line 103), the randomize/truncate step (lines
108-114), the per-book chapter-length check (lines 117-128), then
enumeration, scoring and ranking (lines 133-153). -/
def run (books : List Book) (k c : Nat) (randomize : Bool)
    (choice : Nat → Nat → Char) (m : Nat) :
    Except RunError (List (Nat × List Nat × List Book)) :=
  if books.length < k then .error .insufficientBooks
  else
    let books' := if randomize then randomizeBooks c choice books
                  else truncateBooks c books
    if !randomize && books'.any (fun b => b.chapters.length < c) then
      .error .chapterLength
    else .ok (rankedList1 books' k m)

/-! ### The worked example of spec §8 -/

/-- Book `A:"0011"` of the spec §8 example. -/
def bookA : Book := ⟨1, "A", ['0', '0', '1', '1']⟩

/-- Book `B:"0101"` of the spec §8 example. -/
def bookB : Book := ⟨2, "B", ['0', '1', '0', '1']⟩

/-- Book `C:"0110"` of the spec §8 example. -/
def bookC : Book := ⟨3, "C", ['0', '1', '1', '0']⟩

/-- Book `D:"1100"` of the spec §8 example. -/
def bookD : Book := ⟨4, "D", ['1', '1', '0', '0']⟩

/-- The four-book library of the spec §8 example. -/
def lib4 : List Book := [bookA, bookB, bookC, bookD]

/-- The chapter data of combination `{A, B, C}`. -/
def dataABC : List (List Char) :=
  [['0', '0', '1', '1'], ['0', '1', '0', '1'], ['0', '1', '1', '0']]

/-! ### Shape of the word list under the length invariant -/

theorem foldl_min_const (c : Nat) :
    ∀ rest : List (List Char), (∀ t ∈ rest, t.length = c) →
      rest.foldl (fun m t => min m t.length) c = c := by
  intro rest
  induction rest with
  | nil => intro _; rfl
  | cons t ts ih =>
    intro h
    have ht : t.length = c := h t (List.mem_cons_self t ts)
    simp only [List.foldl_cons, ht, min_self]
    exact ih (fun u hu => h u (List.mem_cons_of_mem t hu))

theorem pyMinLen_eq {data : List (List Char)} {c : Nat} (hne : data ≠ [])
    (h : ∀ s ∈ data, s.length = c) : pyMinLen data = c := by
  cases data with
  | nil => exact absurd rfl hne
  | cons s rest =>
    show rest.foldl (fun m t => min m t.length) s.length = c
    rw [h s (List.mem_cons_self s rest)]
    exact foldl_min_const c rest (fun u hu => h u (List.mem_cons_of_mem s hu))

theorem wordsOf_eq_range {data : List (List Char)} {c : Nat} (hne : data ≠ [])
    (h : ∀ s ∈ data, s.length = c) :
    wordsOf data = (List.range c).map (colsAt data) := by
  unfold wordsOf
  rw [pyMinLen_eq hne h]

theorem nodup_map_range_iff {α : Type} (f : Nat → α) (c : Nat) :
    ((List.range c).map f).Nodup ↔
      ∀ p, p < c → ∀ q, q < c → p ≠ q → f p ≠ f q := by
  rw [List.Nodup, List.pairwise_map, List.pairwise_iff_getElem]
  simp only [List.getElem_range, List.length_range]
  constructor
  · intro h p hp q hq hne
    rcases Nat.lt_or_ge p q with hlt | hge
    · exact h p q hp hq hlt
    · have hqp : q < p := by omega
      exact fun heq => (h q p hq hp hqp) heq.symm
  · intro h i j hi hj hij
    exact h i hi j hj (Nat.ne_of_lt hij)

/-! ### Claim C1: concatenated-word scoring vs the per-token formulation -/

/-- C1 counterexample: for the chapter data of combination `{A,B,C}` of the
spec's own §8 example (all strings of length `chapter_count = 4`), the
implemented concatenated-word scoring yields 0 while the per-token
formulation of §4.2 yields 5 — so the two computations are not equivalent. -/
theorem c1_counterexample :
    (∀ s ∈ dataABC, s.length = 4) ∧
      score (wordsOf dataABC) = 0 ∧ specTokenScore dataABC 4 = 5 ∧
      score (wordsOf dataABC) ≠ specTokenScore dataABC 4 := by
  decide

/-- C1 amended: the concatenated-word scoring implemented by the source
(frequency counter over per-position concatenated words, then
`sum(reps) - len(reps)`) is equivalent to the direct per-position-word
collision formulation: for every group of chapter positions sharing an
identical concatenated word, contribute `(group size - 1)`, summed over all
groups — not to the per-token formulation of §4.2. -/
theorem c1_amended_word_group_equivalence (ws : List (List Char)) :
    score ws = specWordScore ws :=
  score_eq_specWordScore ws

/-! ### Claim C2: the spec §8 worked example -/

/-- C2 counterexample: on the spec §8 input the scorer assigns combination
`{A,B,C}` the score 0, not 5. -/
theorem c2_counterexample : scoreOf [bookA, bookB, bookC] ≠ 5 := by
  decide

/-- C2 amended: on the §8 input with `subset_size = 3` and
`chapter_count = 4`, the scorer assigns both `{A,B,C}` and `{A,B,D}` the
score 0 (equal, not strictly ordered), and the ranker lists `{A,B,C}`
ahead of `{A,B,D}`, in enumeration order. -/
theorem c2_amended_example_scores_and_ranking :
    scoreOf [bookA, bookB, bookC] = 0 ∧ scoreOf [bookA, bookB, bookD] = 0 ∧
      (rankedList1 lib4 3 4).map (fun e => e.2.2.map Book.idx)
        = [[1, 2, 3], [1, 2, 4], [1, 3, 4], [2, 3, 4]] := by
  decide

/-! ### Claim C3: characterization of score zero -/

/-- C3 counterexample: for the chapter data of `{A,B,C}` the score is 0
although the tokens at chapter position 0 are `0,0,0` — far from pairwise
distinct.  This falsifies "score = 0 iff every position has pairwise
distinct tokens". -/
theorem c3_counterexample :
    (∀ s ∈ dataABC, s.length = 4) ∧ score (wordsOf dataABC) = 0 ∧
      colsAt dataABC 0 = ['0', '0', '0'] ∧ ¬ (colsAt dataABC 0).Nodup := by
  decide

/-- C3 amended: for every non-empty combination whose chapter strings all
have length `chapter_count`, the computed score equals 0 iff no two
distinct chapter positions in `[0, chapter_count)` yield the same
concatenated word (rather than iff tokens are pairwise distinct within
each position). -/
theorem c3_amended_score_zero_iff_distinct_words
    (data : List (List Char)) (c : Nat) (hne : data ≠ [])
    (h : ∀ s ∈ data, s.length = c) :
    score (wordsOf data) = 0 ↔
      ∀ p, p < c → ∀ q, q < c → p ≠ q → colsAt data p ≠ colsAt data q := by
  rw [score_eq_zero_iff_nodup, wordsOf_eq_range hne h, nodup_map_range_iff]

/-- Witness for C3: the amended characterization instantiated at the
`{A,B,C}` data with `chapter_count = 4`. -/
theorem c3_witness :
    (dataABC ≠ [] ∧ ∀ s ∈ dataABC, s.length = 4) ∧
      (score (wordsOf dataABC) = 0 ↔
        ∀ p, p < 4 → ∀ q, q < 4 → p ≠ q → colsAt dataABC p ≠ colsAt dataABC q) :=
  ⟨⟨by decide, by decide⟩,
    c3_amended_score_zero_iff_distinct_words dataABC 4 (by decide) (by decide)⟩

/-! ### Claim C10: the score range -/

/-- C10: for every combination whose chapter strings all have length
`chapter_count ≥ 1`, the score lies in `[0, chapter_count - 1]`; in
particular it is strictly below `chapter_count`, which the `main.py`
variant relies on when it initializes its running minimum to
`args.chapters`. -/
theorem c10_score_range (data : List (List Char)) (c : Nat) (h1 : 1 ≤ c)
    (h : ∀ s ∈ data, s.length = c) :
    score (wordsOf data) ≤ c - 1 ∧ score (wordsOf data) < c := by
  cases data with
  | nil =>
    have : score (wordsOf []) = 0 := by decide
    rw [this]
    omega
  | cons s rest =>
    have hne : s :: rest ≠ [] := by simp
    have hw := wordsOf_eq_range hne h
    have hlen : (wordsOf (s :: rest)).length = c := by
      rw [hw, List.length_map, List.length_range]
    rw [score_eq_length_sub_dedup]
    have hwne : wordsOf (s :: rest) ≠ [] := by
      intro hnil
      rw [hnil] at hlen
      simp at hlen
      omega
    have hdne : (wordsOf (s :: rest)).dedup ≠ [] := by
      rw [Ne, List.dedup_eq_nil]
      exact hwne
    have hdpos : 1 ≤ (wordsOf (s :: rest)).dedup.length :=
      List.length_pos.mpr hdne
    have hdle := dedup_length_le (wordsOf (s :: rest))
    omega

/-- Witness for C10: the bound instantiated at the `{A,B,C}` data with
`chapter_count = 4`. -/
theorem c10_witness :
    (1 ≤ 4 ∧ ∀ s ∈ dataABC, s.length = 4) ∧
      (score (wordsOf dataABC) ≤ 4 - 1 ∧ score (wordsOf dataABC) < 4) :=
  ⟨⟨by decide, by decide⟩, c10_score_range dataABC 4 (by decide) (by decide)⟩

/-! ### Claim C4: permutation invariance of the score -/

theorem dedup_length_map_injective {α β : Type} [DecidableEq α] [DecidableEq β]
    (f : α → β) (hf : Function.Injective f) :
    ∀ l : List α, ((l.map f).dedup).length = l.dedup.length := by
  intro l
  induction l with
  | nil => rfl
  | cons a t ih =>
    by_cases hmem : a ∈ t
    · rw [List.map_cons, List.dedup_cons_of_mem hmem,
        List.dedup_cons_of_mem ((List.mem_map_of_injective hf).mpr hmem), ih]
    · rw [List.map_cons, List.dedup_cons_of_not_mem hmem,
        List.dedup_cons_of_not_mem (fun hin => hmem ((List.mem_map_of_injective hf).mp hin)),
        List.length_cons, List.length_cons, ih]

theorem score_map_injective (f : List Char → List Char)
    (hf : Function.Injective f) (ws : List (List Char)) :
    score (ws.map f) = score ws := by
  rw [score_eq_length_sub_dedup, score_eq_length_sub_dedup, List.length_map,
    dedup_length_map_injective f hf ws]

/-- Permuting the rows of the word matrix relabels the per-position words
by one fixed injective function (the corresponding permutation of the
word's characters). -/
theorem perm_words_relabel (c : Nat) {d₁ d₂ : List (List Char)}
    (hp : List.Perm d₁ d₂) :
    ∃ f : List Char → List Char, Function.Injective f ∧
      (List.range c).map (colsAt d₂) = ((List.range c).map (colsAt d₁)).map f := by
  induction hp with
  | nil => exact ⟨id, Function.injective_id, by simp⟩
  | @cons x l₁ l₂ p ih =>
    rcases ih with ⟨g, hg, heq⟩
    have hpt : ∀ p ∈ List.range c, colsAt l₂ p = g (colsAt l₁ p) := by
      rw [List.map_map] at heq
      exact List.map_inj_left.mp heq
    refine ⟨fun w => match w with | [] => [] | ch :: t => ch :: g t, ?_, ?_⟩
    · intro u v huv
      cases u with
      | nil =>
        cases v with
        | nil => rfl
        | cons b v' => simp at huv
      | cons a u' =>
        cases v with
        | nil => simp at huv
        | cons b v' =>
          injection huv with h1 h2
          rw [h1, hg h2]
    · rw [List.map_map]
      apply List.map_inj_left.mpr
      intro q hq
      show x.getD q ' ' :: colsAt l₂ q = x.getD q ' ' :: g (colsAt l₁ q)
      rw [hpt q hq]
  | swap x y l =>
    refine ⟨fun w => match w with | a :: b :: t => b :: a :: t | w => w, ?_, ?_⟩
    · intro u v huv
      cases u with
      | nil =>
        cases v with
        | nil => rfl
        | cons b v' =>
          cases v' with
          | nil => simp at huv
          | cons b2 v'' => simp at huv
      | cons a u' =>
        cases u' with
        | nil =>
          cases v with
          | nil => simp at huv
          | cons b v' =>
            cases v' with
            | nil =>
              injection huv with h1 _
              rw [h1]
            | cons b2 v'' => simp at huv
        | cons a2 u'' =>
          cases v with
          | nil => simp at huv
          | cons b v' =>
            cases v' with
            | nil => simp at huv
            | cons b2 v'' =>
              injection huv with h1 h2
              injection h2 with h3 h4
              rw [h1, h3, h4]
    · rw [List.map_map]
      apply List.map_inj_left.mpr
      intro p _
      rfl
  | trans p1 p2 ih1 ih2 =>
    rcases ih1 with ⟨f1, hf1, heq1⟩
    rcases ih2 with ⟨f2, hf2, heq2⟩
    exact ⟨f2 ∘ f1, hf2.comp hf1, by rw [heq2, heq1, List.map_map]⟩

/-- C4: for every combination whose chapter strings all have length
`chapter_count`, every permutation of the member books yields the same
score: word-position collisions are preserved under the induced uniform
relabeling of the concatenated words. -/
theorem c4_score_permutation_invariant (combo combo' : List Book) (c : Nat)
    (hp : List.Perm combo combo') (h : ∀ b ∈ combo, b.chapters.length = c) :
    scoreOf combo' = scoreOf combo := by
  cases combo with
  | nil =>
    rw [hp.symm.eq_nil]
  | cons b₀ rest =>
    have hne₁ : chaptersData (b₀ :: rest) ≠ [] := by simp [chaptersData]
    have hne₂ : chaptersData combo' ≠ [] := by
      have := hp.length_eq
      cases combo' with
      | nil => simp at this
      | cons x xs => simp [chaptersData]
    have h₁ : ∀ s ∈ chaptersData (b₀ :: rest), s.length = c := by
      intro s hs
      rcases List.mem_map.mp hs with ⟨b, hb, rfl⟩
      exact h b hb
    have h₂ : ∀ s ∈ chaptersData combo', s.length = c := by
      intro s hs
      rcases List.mem_map.mp hs with ⟨b, hb, rfl⟩
      exact h b (hp.mem_iff.mpr hb)
    unfold scoreOf
    rw [wordsOf_eq_range hne₁ h₁, wordsOf_eq_range hne₂ h₂]
    rcases perm_words_relabel c (hp.map Book.chapters) with ⟨f, hf, heq⟩
    show score ((List.range c).map (colsAt (chaptersData combo'))) = _
    rw [show (List.range c).map (colsAt (chaptersData combo'))
        = ((List.range c).map (colsAt (chaptersData (b₀ :: rest)))).map f from heq,
      score_map_injective f hf]

/-- Witness for C4: swapping the first two members of `{A,B,C}` leaves the
score unchanged. -/
theorem c4_witness :
    (List.Perm [bookA, bookB, bookC] [bookB, bookA, bookC] ∧
      ∀ b ∈ [bookA, bookB, bookC], b.chapters.length = 4) ∧
      scoreOf [bookB, bookA, bookC] = scoreOf [bookA, bookB, bookC] :=
  ⟨⟨List.Perm.swap bookB bookA [bookC], by decide⟩,
    c4_score_permutation_invariant [bookA, bookB, bookC] [bookB, bookA, bookC] 4
      (List.Perm.swap bookB bookA [bookC]) (by decide)⟩

/-! ### Generic facts about the ranking sort -/

theorem cmpNat_lt_iff (a b : Nat) : cmpNat a b = .lt ↔ a < b := by
  unfold cmpNat
  split_ifs <;> simp_all

theorem then_of_ne_eq {o : Ordering} (p : Ordering) (h : o ≠ .eq) :
    o.then p = o := by
  cases o with
  | lt => rfl
  | eq => exact absurd rfl h
  | gt => rfl

theorem lawful_cmpEntry {κ : Type} {cmpK : κ → κ → Ordering} (hk : LawfulCmp cmpK) :
    LawfulCmp (cmpEntry cmpK) :=
  lawful_cmpProd lawful_cmpNat (lawful_cmpProd hk (lawful_cmpList lawful_cmpBook))

theorem entryLE_isTotal {κ : Type} {cmpK : κ → κ → Ordering} (hk : LawfulCmp cmpK) :
    IsTotal (Nat × κ × List Book) (entryLE cmpK) :=
  ⟨fun a b => (lawful_cmpEntry hk).le_total a b⟩

theorem entryLE_isTrans {κ : Type} {cmpK : κ → κ → Ordering} (hk : LawfulCmp cmpK) :
    IsTrans (Nat × κ × List Book) (entryLE cmpK) :=
  ⟨fun _ _ _ hab hbc => (lawful_cmpEntry hk).le_trans hab hbc⟩

theorem scoreEntry_injective {κ : Type} (keyF : List Book → κ) :
    Function.Injective (scoreEntry keyF) := by
  intro a b h
  have := congrArg (fun e => e.2.2) h
  exact this

theorem sorted_rankedBy {κ : Type} {cmpK : κ → κ → Ordering} (hk : LawfulCmp cmpK)
    (keyF : List Book → κ) (books : List Book) (k m : Nat) :
    (rankedBy cmpK keyF books k m).Sorted (entryLE cmpK) := by
  haveI := entryLE_isTotal hk
  haveI := entryLE_isTrans hk
  exact List.Pairwise.sublist (List.take_sublist m _)
    (List.sorted_insertionSort (entryLE cmpK) _)

theorem nodup_rankedBy {κ : Type} (cmpK : κ → κ → Ordering)
    (keyF : List Book → κ) (books : List Book) (k m : Nat)
    (hnd : books.Nodup) : (rankedBy cmpK keyF books k m).Nodup := by
  have h1 : ((combinations k books).map (scoreEntry keyF)).Nodup :=
    (nodup_combinations k books hnd).map (scoreEntry_injective keyF)
  have h2 := ((List.perm_insertionSort (entryLE cmpK)
    ((combinations k books).map (scoreEntry keyF))).symm).nodup h1
  exact List.Nodup.sublist (List.take_sublist m _) h2

theorem mem_rankedBy {κ : Type} {cmpK : κ → κ → Ordering}
    {keyF : List Book → κ} {books : List Book} {k m : Nat}
    {e : Nat × κ × List Book} (he : e ∈ rankedBy cmpK keyF books k m) :
    ∃ cb, cb ∈ combinations k books ∧ e = scoreEntry keyF cb := by
  have h1 : e ∈ List.insertionSort (entryLE cmpK)
      ((combinations k books).map (scoreEntry keyF)) :=
    (List.take_sublist m _).subset he
  have h2 : e ∈ (combinations k books).map (scoreEntry keyF) :=
    (List.perm_insertionSort (entryLE cmpK) _).mem_iff.mp h1
  rcases List.mem_map.mp h2 with ⟨cb, hcb, rfl⟩
  exact ⟨cb, hcb, rfl⟩

/-! ### Id-based order of books in a fixed library -/

theorem idx_inj_of_pairwise {books : List Book}
    (hid : books.Pairwise (fun a b => a.idx < b.idx)) :
    ∀ x ∈ books, ∀ y ∈ books, x.idx = y.idx → x = y := by
  have hnodup : (books.map Book.idx).Nodup := by
    rw [List.Nodup, List.pairwise_map]
    exact hid.imp (fun h => Nat.ne_of_lt h)
  exact fun x hx y hy hxy => List.inj_on_of_nodup_map hnodup hx hy hxy

theorem cmpBook_lt_idx {books : List Book}
    (hid : books.Pairwise (fun a b => a.idx < b.idx))
    {x y : Book} (hx : x ∈ books) (hy : y ∈ books)
    (hlt : cmpBook x y = .lt) : x.idx < y.idx := by
  have hdec : (cmpNat x.idx y.idx).then
      (cmpProd cmpStr (cmpList cmpChar) (x.title, x.chapters) (y.title, y.chapters)) = .lt := hlt
  rcases (then_eq_lt _ _).mp hdec with h | ⟨h, _⟩
  · exact (cmpNat_lt_iff _ _).mp h
  · have hxy : x = y := idx_inj_of_pairwise hid x hx y hy ((lawful_cmpNat.eq_iff _ _).mp h)
    subst hxy
    rw [lawful_cmpBook.cmp_refl] at hlt
    exact absurd hlt (by simp)

theorem cmpList_book_lt_lex {books : List Book}
    (hid : books.Pairwise (fun a b => a.idx < b.idx)) :
    ∀ {s t : List Book}, (∀ b ∈ s, b ∈ books) → (∀ b ∈ t, b ∈ books) →
      cmpList cmpBook s t = .lt →
      List.Lex (· < ·) (s.map Book.idx) (t.map Book.idx) := by
  intro s
  induction s with
  | nil =>
    intro t _ _ hlt
    cases t with
    | nil => simp [cmpList_nil_nil] at hlt
    | cons b bs => exact List.Lex.nil
  | cons a as ih =>
    intro t hs ht hlt
    cases t with
    | nil => simp [cmpList_cons_nil] at hlt
    | cons b bs =>
      rw [cmpList_cons_cons] at hlt
      rcases (then_eq_lt _ _).mp hlt with h | ⟨h, hrest⟩
      · exact List.Lex.rel (cmpBook_lt_idx hid
          (hs a (List.mem_cons_self a as)) (ht b (List.mem_cons_self b bs)) h)
      · have hab : a = b := (lawful_cmpBook.eq_iff _ _).mp h
        subst hab
        exact List.Lex.cons (ih (fun x hx => hs x (List.mem_cons_of_mem a hx))
          (fun x hx => ht x (List.mem_cons_of_mem a hx)) hrest)

/-- The enumeration order of `itertools.combinations` is the index-ascending
lexicographic order on member id sequences. -/
theorem combos_pairwise_idx_lex (books : List Book) (k : Nat)
    (hid : books.Pairwise (fun a b => a.idx < b.idx)) :
    (combinations k books).Pairwise
      (fun s t => List.Lex (· < ·) (s.map Book.idx) (t.map Book.idx)) :=
  (pairwise_lex_combinations k books hid).imp
    (fun h => lex_map Book.idx (fun _ _ hab => hab) h)

/-- Entries tied on score and on the secondary key are ordered by the
id-lexicographic order of their member lists. -/
theorem rankedBy_tie_lex {κ : Type} {cmpK : κ → κ → Ordering} (hk : LawfulCmp cmpK)
    (keyF : List Book → κ) (books : List Book) (k m : Nat)
    (hid : books.Pairwise (fun a b => a.idx < b.idx)) :
    (rankedBy cmpK keyF books k m).Pairwise
      (fun e f => e.1 = f.1 → e.2.1 = f.2.1 →
        List.Lex (· < ·) (e.2.2.map Book.idx) (f.2.2.map Book.idx)) := by
  have hnd : books.Nodup := by
    rw [List.Nodup]
    exact hid.imp (fun h heq => by rw [heq] at h; exact Nat.lt_irrefl _ h)
  have hsorted := sorted_rankedBy hk keyF books k m
  have hnodup := nodup_rankedBy cmpK keyF books k m hnd
  have hand := List.Pairwise.and hsorted hnodup
  apply hand.imp_of_mem
  intro e f he hf hef hscore hkey
  rcases mem_rankedBy he with ⟨cb₁, hcb₁, rfl⟩
  rcases mem_rankedBy hf with ⟨cb₂, hcb₂, rfl⟩
  have hcmp : cmpEntry cmpK (scoreEntry keyF cb₁) (scoreEntry keyF cb₂)
      = cmpList cmpBook cb₁ cb₂ := by
    show (cmpNat (scoreOf cb₁) (scoreOf cb₂)).then
      ((cmpK (keyF cb₁) (keyF cb₂)).then (cmpList cmpBook cb₁ cb₂))
        = cmpList cmpBook cb₁ cb₂
    rw [show scoreOf cb₁ = scoreOf cb₂ from hscore, lawful_cmpNat.cmp_refl]
    rw [show keyF cb₁ = keyF cb₂ from hkey, hk.cmp_refl]
    rfl
  have hle : cmpList cmpBook cb₁ cb₂ ≠ .gt := by
    rw [← hcmp]
    exact hef.1
  have hne : cb₁ ≠ cb₂ := by
    intro heq
    rw [heq] at hef
    exact hef.2 rfl
  rcases (lawful_cmpList lawful_cmpBook).not_gt_cases hle with hlt | heq
  · have hsub₁ : cb₁.Sublist books := ((mem_combinations k books cb₁).mp hcb₁).1
    have hsub₂ : cb₂.Sublist books := ((mem_combinations k books cb₂).mp hcb₂).1
    exact cmpList_book_lt_lex hid (fun b hb => hsub₁.subset hb)
      (fun b hb => hsub₂.subset hb) hlt
  · exact absurd heq hne

theorem books_nodup_of_idx {books : List Book}
    (hid : books.Pairwise (fun a b => a.idx < b.idx)) : books.Nodup := by
  rw [List.Nodup]
  exact hid.imp (fun h heq => by rw [heq] at h; exact Nat.lt_irrefl _ h)

/-! ### Claim C5: the ranking order -/

/-- C5: the ranking relation (Python tuple comparison of
`(score, reps, combo)` resp. `(score, chaps, combo)`) is total and
transitive; the ranked output of either variant is sorted by it (score
ascending first, then the diagnostic key lexicographically); any two output
entries tied on both score and diagnostic key are ordered by the
id-lexicographic order of their member books, which is exactly the §4.1
enumeration order of the combinations; ranking is a pure function of its
input, so re-running on identical input yields the identical list. -/
theorem c5_ranking_total_deterministic (books : List Book) (k m : Nat)
    (hid : books.Pairwise (fun a b => a.idx < b.idx)) :
    (∀ e f : Nat × List Nat × List Book,
      entryLE (cmpList cmpNat) e f ∨ entryLE (cmpList cmpNat) f e) ∧
    (∀ e f g : Nat × List Nat × List Book, entryLE (cmpList cmpNat) e f →
      entryLE (cmpList cmpNat) f g → entryLE (cmpList cmpNat) e g) ∧
    (rankedList1 books k m).Sorted (entryLE (cmpList cmpNat)) ∧
    (rankedList1 books k m).Pairwise
      (fun e f => e.1 = f.1 → e.2.1 = f.2.1 →
        List.Lex (· < ·) (e.2.2.map Book.idx) (f.2.2.map Book.idx)) ∧
    (rankedList2 books k m).Sorted (entryLE (cmpList (cmpList cmpNat))) ∧
    (rankedList2 books k m).Pairwise
      (fun e f => e.1 = f.1 → e.2.1 = f.2.1 →
        List.Lex (· < ·) (e.2.2.map Book.idx) (f.2.2.map Book.idx)) ∧
    (combinations k books).Pairwise
      (fun s t => List.Lex (· < ·) (s.map Book.idx) (t.map Book.idx)) := by
  have hk1 : LawfulCmp (cmpList cmpNat) := lawful_cmpList lawful_cmpNat
  have hk2 : LawfulCmp (cmpList (cmpList cmpNat)) :=
    lawful_cmpList (lawful_cmpList lawful_cmpNat)
  exact ⟨fun e f => (lawful_cmpEntry hk1).le_total e f,
    fun _ _ _ hab hbc => (lawful_cmpEntry hk1).le_trans hab hbc,
    sorted_rankedBy hk1 repsKey books k m,
    rankedBy_tie_lex hk1 repsKey books k m hid,
    sorted_rankedBy hk2 chapsKey books k m,
    rankedBy_tie_lex hk2 chapsKey books k m hid,
    combos_pairwise_idx_lex books k hid⟩

/-- Witness for C5: the ranking-order properties instantiated at the §8
library with `subset_size = 3`, `result_list_size = 4`. -/
theorem c5_witness :
    (lib4.Pairwise (fun a b => a.idx < b.idx)) ∧
    ((∀ e f : Nat × List Nat × List Book,
      entryLE (cmpList cmpNat) e f ∨ entryLE (cmpList cmpNat) f e) ∧
    (∀ e f g : Nat × List Nat × List Book, entryLE (cmpList cmpNat) e f →
      entryLE (cmpList cmpNat) f g → entryLE (cmpList cmpNat) e g) ∧
    (rankedList1 lib4 3 4).Sorted (entryLE (cmpList cmpNat)) ∧
    (rankedList1 lib4 3 4).Pairwise
      (fun e f => e.1 = f.1 → e.2.1 = f.2.1 →
        List.Lex (· < ·) (e.2.2.map Book.idx) (f.2.2.map Book.idx)) ∧
    (rankedList2 lib4 3 4).Sorted (entryLE (cmpList (cmpList cmpNat))) ∧
    (rankedList2 lib4 3 4).Pairwise
      (fun e f => e.1 = f.1 → e.2.1 = f.2.1 →
        List.Lex (· < ·) (e.2.2.map Book.idx) (f.2.2.map Book.idx)) ∧
    (combinations 3 lib4).Pairwise
      (fun s t => List.Lex (· < ·) (s.map Book.idx) (t.map Book.idx))) :=
  ⟨by decide, c5_ranking_total_deterministic lib4 3 4 (by decide)⟩

/-! ### Claim C6: the enumerator -/

/-- C6: for every library with ascending ids and every `1 ≤ k ≤ n`, the
enumerator produces exactly `C(n, k)` combinations; membership is exactly
the size-`k` subsequences of the input; there are no duplicates, and two
enumerated combinations with the same member set are equal (each subset
appears exactly once); the enumeration is in index-ascending lexicographic
order of member ids; and for `k = n` exactly the whole library is
produced. -/
theorem c6_enumeration (books : List Book) (k : Nat) (_hk1 : 1 ≤ k)
    (_hkn : k ≤ books.length) (hid : books.Pairwise (fun a b => a.idx < b.idx)) :
    (combinations k books).length = books.length.choose k ∧
    (∀ s : List Book, s ∈ combinations k books ↔ (s.Sublist books ∧ s.length = k)) ∧
    (combinations k books).Nodup ∧
    (∀ s ∈ combinations k books, ∀ t ∈ combinations k books,
      (∀ b : Book, b ∈ s ↔ b ∈ t) → s = t) ∧
    (combinations k books).Pairwise
      (fun s t => List.Lex (· < ·) (s.map Book.idx) (t.map Book.idx)) ∧
    (k = books.length → combinations k books = [books]) := by
  have hnd : books.Nodup := books_nodup_of_idx hid
  refine ⟨length_combinations k books, fun s => mem_combinations k books s,
    nodup_combinations k books hnd, ?_, combos_pairwise_idx_lex books k hid, ?_⟩
  · intro s hs t ht hiff
    exact sublist_eq_of_mem_iff books s t hnd
      ((mem_combinations k books s).mp hs).1 ((mem_combinations k books t).mp ht).1 hiff
  · intro hkeq
    rw [hkeq]
    exact combinations_self books

/-- Witness for C6: the enumerator properties instantiated at the §8
library with `k = 2` (six combinations). -/
theorem c6_witness :
    (1 ≤ 2 ∧ 2 ≤ lib4.length ∧ lib4.Pairwise (fun a b => a.idx < b.idx)) ∧
    ((combinations 2 lib4).length = lib4.length.choose 2 ∧
    (∀ s : List Book, s ∈ combinations 2 lib4 ↔ (s.Sublist lib4 ∧ s.length = 2)) ∧
    (combinations 2 lib4).Nodup ∧
    (∀ s ∈ combinations 2 lib4, ∀ t ∈ combinations 2 lib4,
      (∀ b : Book, b ∈ s ↔ b ∈ t) → s = t) ∧
    (combinations 2 lib4).Pairwise
      (fun s t => List.Lex (· < ·) (s.map Book.idx) (t.map Book.idx)) ∧
    (2 = lib4.length → combinations 2 lib4 = [lib4])) :=
  ⟨⟨by decide, by decide, by decide⟩,
    c6_enumeration lib4 2 (by decide) (by decide) (by decide)⟩

/-! ### Claim C8: truncation of the ranked list -/

/-- C8: the ranker returns the first `result_list_size` entries of the
fully sorted sequence; when `result_list_size` is at least the number of
enumerated combinations, the whole sorted sequence is returned — one entry
per combination, no error value, no duplicate and no padding entries. -/
theorem c8_truncation (books : List Book) (k m : Nat)
    (hid : books.Pairwise (fun a b => a.idx < b.idx))
    (hm : (combinations k books).length ≤ m) :
    rankedList1 books k m = List.insertionSort (entryLE (cmpList cmpNat))
      ((combinations k books).map (scoreEntry repsKey)) ∧
    List.Perm (rankedList1 books k m)
      ((combinations k books).map (scoreEntry repsKey)) ∧
    (rankedList1 books k m).Nodup ∧
    (rankedList1 books k m).length = (combinations k books).length := by
  have hlen : (List.insertionSort (entryLE (cmpList cmpNat))
      ((combinations k books).map (scoreEntry repsKey))).length
        = (combinations k books).length := by
    rw [(List.perm_insertionSort _ _).length_eq, List.length_map]
  have h1 : rankedList1 books k m = List.insertionSort (entryLE (cmpList cmpNat))
      ((combinations k books).map (scoreEntry repsKey)) := by
    show (List.insertionSort (entryLE (cmpList cmpNat))
      ((combinations k books).map (scoreEntry repsKey))).take m = _
    apply List.take_of_length_le
    rw [hlen]
    exact hm
  refine ⟨h1, ?_, ?_, ?_⟩
  · rw [h1]
    exact List.perm_insertionSort _ _
  · exact nodup_rankedBy (cmpList cmpNat) repsKey books k m (books_nodup_of_idx hid)
  · rw [h1, hlen]

/-- Witness for C8: with `result_list_size = 10` exceeding the four
enumerated combinations of the §8 library, everything is returned. -/
theorem c8_witness :
    (lib4.Pairwise (fun a b => a.idx < b.idx) ∧ (combinations 3 lib4).length ≤ 10) ∧
    (rankedList1 lib4 3 10 = List.insertionSort (entryLE (cmpList cmpNat))
      ((combinations 3 lib4).map (scoreEntry repsKey)) ∧
    List.Perm (rankedList1 lib4 3 10)
      ((combinations 3 lib4).map (scoreEntry repsKey)) ∧
    (rankedList1 lib4 3 10).Nodup ∧
    (rankedList1 lib4 3 10).length = (combinations 3 lib4).length) :=
  ⟨⟨by decide, by decide⟩, c8_truncation lib4 3 10 (by decide) (by decide)⟩

/-! ### Claim C7: error conditions of a scoring run -/

theorem truncate_any_short (c : Nat) (books : List Book) :
    ((truncateBooks c books).any (fun b => b.chapters.length < c) = true)
      ↔ ∃ b ∈ books, b.chapters.length < c := by
  simp only [truncateBooks, List.any_map, List.any_eq_true, Function.comp,
    List.length_take, decide_eq_true_eq]
  constructor
  · rintro ⟨b, hb, hlen⟩
    exact ⟨b, hb, by omega⟩
  · rintro ⟨b, hb, hlen⟩
    exact ⟨b, hb, by omega⟩

/-- A library consisting of one book with no chapter data. -/
def shortLib : List Book := [⟨1, "E", []⟩]

/-- C7 counterexample: with one chapterless book, `subset_size = 2`,
`chapter_count = 1` and randomize off, both error conditions hold, but the
run fails with the insufficient-books error, not with the chapter-length
error — so "fails with ChapterLengthError exactly when randomize is off and
some book is too short" is false as a biconditional. -/
theorem c7_counterexample :
    (∃ b ∈ shortLib, b.chapters.length < 1) ∧
      run shortLib 2 1 false (fun _ _ => '0') 1 = .error .insufficientBooks ∧
      run shortLib 2 1 false (fun _ _ => '0') 1 ≠ .error .chapterLength := by
  refine ⟨⟨⟨1, "E", []⟩, by decide, by decide⟩, rfl, ?_⟩
  rw [show run shortLib 2 1 false (fun _ _ => '0') 1
    = .error .insufficientBooks from rfl]
  simp

/-- C7 amended: a run fails with `InsufficientBooksError` exactly when the
library has fewer books than `subset_size`; it fails with
`ChapterLengthError` exactly when the library has enough books AND
randomize mode is off AND some book's chapter data is shorter than
`chapter_count` (in randomize mode data is synthesized to exact length and
this error never occurs); the checks precede enumeration, and an erroring
run yields no result list at all. -/
theorem c7_amended_error_conditions (books : List Book) (k c : Nat)
    (randomize : Bool) (choice : Nat → Nat → Char) (m : Nat) :
    (run books k c randomize choice m = .error .insufficientBooks ↔
      books.length < k) ∧
    (run books k c randomize choice m = .error .chapterLength ↔
      (¬books.length < k ∧ randomize = false ∧ ∃ b ∈ books, b.chapters.length < c)) ∧
    (randomize = true → run books k c randomize choice m ≠ .error .chapterLength) ∧
    (∀ err, run books k c randomize choice m = .error err →
      ∀ out, run books k c randomize choice m ≠ .ok out) := by
  by_cases hlt : books.length < k
  · refine ⟨by simp [run, hlt], by simp [run, hlt], ?_, ?_⟩
    · intro _
      simp [run, hlt]
    · intro err h out
      simp [run, hlt]
  · by_cases hrand : randomize = true
    · refine ⟨by simp [run, hlt, hrand], by simp [run, hlt, hrand], ?_, ?_⟩
      · intro _
        simp [run, hlt, hrand]
      · intro err h out
        simp [run, hlt, hrand] at h
    · have hrand' : randomize = false := by
        cases randomize with
        | false => rfl
        | true => exact absurd rfl hrand
      by_cases hshort : ∃ b ∈ books, b.chapters.length < c
      · have hany : ((truncateBooks c books).any
            (fun b => b.chapters.length < c)) = true :=
          (truncate_any_short c books).mpr hshort
        refine ⟨by simp [run, hlt, hrand', hany], ?_, ?_, ?_⟩
        · simp [run, hlt, hrand', hany, hshort]
        · intro hcontra
          rw [hcontra] at hrand'
          simp at hrand'
        · intro err h out
          simp [run, hlt, hrand', hany]
      · have hany : ((truncateBooks c books).any
            (fun b => b.chapters.length < c)) = false := by
          rcases hb : (truncateBooks c books).any (fun b => b.chapters.length < c) with _ | _
          · rfl
          · exact absurd ((truncate_any_short c books).mp hb) hshort
        refine ⟨by simp [run, hlt, hrand', hany], ?_, ?_, ?_⟩
        · simp [run, hlt, hrand', hany, hshort]
        · intro hcontra
          rw [hcontra] at hrand'
          simp at hrand'
        · intro err h out
          simp [run, hlt, hrand', hany] at h

/-! ### Claim C9: titles do not influence scoring or ranking -/

/-- Erase the (scoring-irrelevant) title of a book. -/
def stripTitle (b : Book) : Book :=
  ⟨b.idx, "", b.chapters⟩

/-- Erase the titles inside a ranked entry. -/
def stripEntry {κ : Type} (e : Nat × κ × List Book) : Nat × κ × List Book :=
  (e.1, e.2.1, e.2.2.map stripTitle)

theorem chaptersData_strip (cb : List Book) :
    chaptersData (cb.map stripTitle) = chaptersData cb := by
  unfold chaptersData
  rw [List.map_map]
  rfl

theorem scoreOf_strip (cb : List Book) :
    scoreOf (cb.map stripTitle) = scoreOf cb := by
  unfold scoreOf
  rw [chaptersData_strip]

theorem repsKey_strip (cb : List Book) :
    repsKey (cb.map stripTitle) = repsKey cb := by
  unfold repsKey
  rw [chaptersData_strip]

theorem scoreEntry_strip {κ : Type} {keyF : List Book → κ}
    (hkey : ∀ cb, keyF (cb.map stripTitle) = keyF cb) (cb : List Book) :
    scoreEntry keyF (cb.map stripTitle) = stripEntry (scoreEntry keyF cb) := by
  unfold scoreEntry stripEntry
  rw [scoreOf_strip, hkey]

theorem cmpBook_strip {bs : List Book}
    (hinj : ∀ x ∈ bs, ∀ y ∈ bs, x.idx = y.idx → x = y)
    {x y : Book} (hx : x ∈ bs) (hy : y ∈ bs) :
    cmpBook (stripTitle x) (stripTitle y) = cmpBook x y := by
  by_cases h : x.idx = y.idx
  · have hxy := hinj x hx y hy h
    subst hxy
    rw [lawful_cmpBook.cmp_refl, lawful_cmpBook.cmp_refl]
  · have hne : cmpNat x.idx y.idx ≠ .eq := fun hc => h ((lawful_cmpNat.eq_iff _ _).mp hc)
    show (cmpNat x.idx y.idx).then _ = (cmpNat x.idx y.idx).then _
    rw [then_of_ne_eq _ hne, then_of_ne_eq _ hne]

theorem cmpList_book_strip {bs : List Book}
    (hinj : ∀ x ∈ bs, ∀ y ∈ bs, x.idx = y.idx → x = y) :
    ∀ {s t : List Book}, (∀ b ∈ s, b ∈ bs) → (∀ b ∈ t, b ∈ bs) →
      cmpList cmpBook (s.map stripTitle) (t.map stripTitle)
        = cmpList cmpBook s t := by
  intro s
  induction s with
  | nil =>
    intro t _ _
    cases t with
    | nil => rfl
    | cons b bs' => rfl
  | cons a as ih =>
    intro t hs ht
    cases t with
    | nil => rfl
    | cons b bs' =>
      rw [List.map_cons, List.map_cons, cmpList_cons_cons, cmpList_cons_cons]
      rw [cmpBook_strip hinj (hs a (List.mem_cons_self a as)) (ht b (List.mem_cons_self b bs'))]
      rw [ih (fun x hx => hs x (List.mem_cons_of_mem a hx))
        (fun x hx => ht x (List.mem_cons_of_mem b hx))]

theorem cmpEntry_strip {κ : Type} {cmpK : κ → κ → Ordering} {bs : List Book}
    (hinj : ∀ x ∈ bs, ∀ y ∈ bs, x.idx = y.idx → x = y)
    {e f : Nat × κ × List Book}
    (he : ∀ b ∈ e.2.2, b ∈ bs) (hf : ∀ b ∈ f.2.2, b ∈ bs) :
    cmpEntry cmpK (stripEntry e) (stripEntry f) = cmpEntry cmpK e f := by
  show (cmpNat e.1 f.1).then ((cmpK e.2.1 f.2.1).then
      (cmpList cmpBook (e.2.2.map stripTitle) (f.2.2.map stripTitle)))
    = (cmpNat e.1 f.1).then ((cmpK e.2.1 f.2.1).then (cmpList cmpBook e.2.2 f.2.2))
  rw [cmpList_book_strip hinj he hf]

theorem orderedInsert_cmp_map {κ : Type} {cmpK : κ → κ → Ordering}
    (g : Nat × κ × List Book → Nat × κ × List Book) (a : Nat × κ × List Book) :
    ∀ l : List (Nat × κ × List Book),
      (∀ x ∈ a :: l, ∀ y ∈ a :: l, cmpEntry cmpK (g x) (g y) = cmpEntry cmpK x y) →
      List.orderedInsert (entryLE cmpK) (g a) (l.map g)
        = (List.orderedInsert (entryLE cmpK) a l).map g := by
  intro l
  induction l with
  | nil => intro _; rfl
  | cons b t ih =>
    intro h
    have hmem_a : a ∈ a :: b :: t := List.mem_cons_self _ _
    have hmem_b : b ∈ a :: b :: t := List.mem_cons_of_mem a (List.mem_cons_self _ _)
    have hab : entryLE cmpK (g a) (g b) ↔ entryLE cmpK a b := by
      unfold entryLE
      rw [h a hmem_a b hmem_b]
    by_cases hle : entryLE cmpK a b
    · rw [List.map_cons]
      rw [show List.orderedInsert (entryLE cmpK) (g a) (g b :: t.map g)
          = g a :: g b :: t.map g from by simp [List.orderedInsert, hab.mpr hle]]
      rw [show List.orderedInsert (entryLE cmpK) a (b :: t)
          = a :: b :: t from by simp [List.orderedInsert, hle]]
      rw [List.map_cons, List.map_cons]
    · have hgle : ¬ entryLE cmpK (g a) (g b) := fun hc => hle (hab.mp hc)
      have hrest : ∀ x ∈ a :: t, ∀ y ∈ a :: t,
          cmpEntry cmpK (g x) (g y) = cmpEntry cmpK x y := by
        intro x hx y hy
        have hx' : x ∈ a :: b :: t := by
          rcases List.mem_cons.mp hx with rfl | hx2
          · exact List.mem_cons_self _ _
          · exact List.mem_cons_of_mem a (List.mem_cons_of_mem b hx2)
        have hy' : y ∈ a :: b :: t := by
          rcases List.mem_cons.mp hy with rfl | hy2
          · exact List.mem_cons_self _ _
          · exact List.mem_cons_of_mem a (List.mem_cons_of_mem b hy2)
        exact h x hx' y hy'
      rw [List.map_cons]
      rw [show List.orderedInsert (entryLE cmpK) (g a) (g b :: t.map g)
          = g b :: List.orderedInsert (entryLE cmpK) (g a) (t.map g) from by
        simp [List.orderedInsert, hgle]]
      rw [show List.orderedInsert (entryLE cmpK) a (b :: t)
          = b :: List.orderedInsert (entryLE cmpK) a t from by
        simp [List.orderedInsert, hle]]
      rw [List.map_cons, ih hrest]

theorem insertionSort_cmp_map {κ : Type} {cmpK : κ → κ → Ordering}
    (g : Nat × κ × List Book → Nat × κ × List Book) :
    ∀ l : List (Nat × κ × List Book),
      (∀ x ∈ l, ∀ y ∈ l, cmpEntry cmpK (g x) (g y) = cmpEntry cmpK x y) →
      List.insertionSort (entryLE cmpK) (l.map g)
        = (List.insertionSort (entryLE cmpK) l).map g := by
  intro l
  induction l with
  | nil => intro _; rfl
  | cons a t ih =>
    intro h
    have hperm := List.perm_insertionSort (entryLE cmpK) t
    have hstep : List.insertionSort (entryLE cmpK) ((a :: t).map g)
        = List.orderedInsert (entryLE cmpK) (g a)
          ((List.insertionSort (entryLE cmpK) t).map g) := by
      rw [List.map_cons]
      show List.orderedInsert (entryLE cmpK) (g a)
        (List.insertionSort (entryLE cmpK) (t.map g)) = _
      rw [ih (fun x hx y hy =>
        h x (List.mem_cons_of_mem a hx) y (List.mem_cons_of_mem a hy))]
    rw [hstep, orderedInsert_cmp_map g a (List.insertionSort (entryLE cmpK) t)
      (fun x hx y hy => ?_ )]
    · rfl
    · have hx' : x ∈ a :: t := by
        rcases List.mem_cons.mp hx with rfl | hx2
        · exact List.mem_cons_self _ _
        · exact List.mem_cons_of_mem a (hperm.mem_iff.mp hx2)
      have hy' : y ∈ a :: t := by
        rcases List.mem_cons.mp hy with rfl | hy2
        · exact List.mem_cons_self _ _
        · exact List.mem_cons_of_mem a (hperm.mem_iff.mp hy2)
      exact h x hx' y hy'

theorem entries_strip {κ : Type} {keyF : List Book → κ}
    (hkey : ∀ cb, keyF (cb.map stripTitle) = keyF cb) (k : Nat) (bs : List Book) :
    (combinations k (bs.map stripTitle)).map (scoreEntry keyF)
      = ((combinations k bs).map (scoreEntry keyF)).map stripEntry := by
  rw [combinations_map stripTitle k bs, List.map_map, List.map_map]
  apply List.map_inj_left.mpr
  intro cb _
  exact scoreEntry_strip hkey cb

theorem ranked_strip {κ : Type} {cmpK : κ → κ → Ordering} {keyF : List Book → κ}
    (hkey : ∀ cb, keyF (cb.map stripTitle) = keyF cb) (bs : List Book) (k m : Nat)
    (hinj : ∀ x ∈ bs, ∀ y ∈ bs, x.idx = y.idx → x = y) :
    (rankedBy cmpK keyF bs k m).map stripEntry
      = rankedBy cmpK keyF (bs.map stripTitle) k m := by
  unfold rankedBy
  rw [List.map_take]
  apply congrArg (List.take m)
  rw [entries_strip hkey k bs]
  rw [insertionSort_cmp_map stripEntry ((combinations k bs).map (scoreEntry keyF))
    (fun x hx y hy => ?_)]
  rcases List.mem_map.mp hx with ⟨cb₁, hcb₁, rfl⟩
  rcases List.mem_map.mp hy with ⟨cb₂, hcb₂, rfl⟩
  have hsub₁ := ((mem_combinations k bs cb₁).mp hcb₁).1
  have hsub₂ := ((mem_combinations k bs cb₂).mp hcb₂).1
  exact cmpEntry_strip hinj (fun b hb => hsub₁.subset hb) (fun b hb => hsub₂.subset hb)

theorem idx_map_strip (bs : List Book) :
    (bs.map stripTitle).map Book.idx = bs.map Book.idx := by
  rw [List.map_map]
  rfl

/-- C9: book titles do not influence scoring or ranking.  For two libraries
identical except for titles (their title-stripped book lists agree), every
combination receives the same `(score, reps)` pair, and the ranked outputs
agree up to the titles they carry — in particular they select the same
combinations, identified by book ids, in the same order. -/
theorem c9_title_independence (books₁ books₂ : List Book) (k m : Nat)
    (hid : books₁.Pairwise (fun a b => a.idx < b.idx))
    (hstrip : books₂.map stripTitle = books₁.map stripTitle) :
    ((combinations k books₂).map (fun cb => (scoreOf cb, repsKey cb))
      = (combinations k books₁).map (fun cb => (scoreOf cb, repsKey cb))) ∧
    ((rankedList1 books₂ k m).map stripEntry
      = (rankedList1 books₁ k m).map stripEntry) ∧
    ((rankedList1 books₂ k m).map (fun e => e.2.2.map Book.idx)
      = (rankedList1 books₁ k m).map (fun e => e.2.2.map Book.idx)) := by
  have hidx : books₂.map Book.idx = books₁.map Book.idx := by
    have h := congrArg (List.map Book.idx) hstrip
    rw [idx_map_strip, idx_map_strip] at h
    exact h
  have hid₂ : books₂.Pairwise (fun a b => a.idx < b.idx) := by
    have h1 : (books₁.map Book.idx).Pairwise (· < ·) := List.pairwise_map.mpr hid
    rw [← hidx] at h1
    exact List.pairwise_map.mp h1
  have hinj₁ := idx_inj_of_pairwise hid
  have hinj₂ := idx_inj_of_pairwise hid₂
  have hscored : ∀ bs : List Book,
      (combinations k bs).map (fun cb => (scoreOf cb, repsKey cb))
        = (combinations k (bs.map stripTitle)).map (fun cb => (scoreOf cb, repsKey cb)) := by
    intro bs
    rw [combinations_map stripTitle k bs, List.map_map]
    apply (List.map_inj_left.mpr _).symm
    intro cb _
    show (scoreOf (cb.map stripTitle), repsKey (cb.map stripTitle)) = _
    rw [scoreOf_strip, repsKey_strip]
  have hranked : (rankedList1 books₂ k m).map stripEntry
      = (rankedList1 books₁ k m).map stripEntry := by
    unfold rankedList1
    rw [ranked_strip repsKey_strip books₂ k m hinj₂,
      ranked_strip repsKey_strip books₁ k m hinj₁, hstrip]
  refine ⟨?_, hranked, ?_⟩
  · rw [hscored books₂, hscored books₁, hstrip]
  · have h := congrArg (List.map (fun e : Nat × List Nat × List Book => e.2.2)) hranked
    rw [List.map_map, List.map_map] at h
    have h2 := congrArg (List.map (List.map Book.idx)) h
    rw [List.map_map, List.map_map] at h2
    have hcomp : ∀ e : Nat × List Nat × List Book,
        (List.map Book.idx ∘ (fun e : Nat × List Nat × List Book => e.2.2) ∘ stripEntry) e
          = (fun e : Nat × List Nat × List Book => e.2.2.map Book.idx) e := by
      intro e
      show (e.2.2.map stripTitle).map Book.idx = e.2.2.map Book.idx
      exact idx_map_strip e.2.2
    have hfun : (List.map Book.idx ∘ (fun e : Nat × List Nat × List Book => e.2.2) ∘ stripEntry)
        = (fun e : Nat × List Nat × List Book => e.2.2.map Book.idx) := funext hcomp
    rw [hfun] at h2
    exact h2

/-- The §8 library with all titles replaced. -/
def lib4alt : List Book :=
  [⟨1, "W", ['0', '0', '1', '1']⟩, ⟨2, "X", ['0', '1', '0', '1']⟩,
   ⟨3, "Y", ['0', '1', '1', '0']⟩, ⟨4, "Z", ['1', '1', '0', '0']⟩]

/-- Witness for C9: retitling the §8 library changes neither the scored
pairs nor the ranked selection. -/
theorem c9_witness :
    (lib4.Pairwise (fun a b => a.idx < b.idx) ∧
      lib4alt.map stripTitle = lib4.map stripTitle) ∧
    (((combinations 3 lib4alt).map (fun cb => (scoreOf cb, repsKey cb))
      = (combinations 3 lib4).map (fun cb => (scoreOf cb, repsKey cb))) ∧
    ((rankedList1 lib4alt 3 2).map stripEntry
      = (rankedList1 lib4 3 2).map stripEntry) ∧
    ((rankedList1 lib4alt 3 2).map (fun e => e.2.2.map Book.idx)
      = (rankedList1 lib4 3 2).map (fun e => e.2.2.map Book.idx))) :=
  ⟨⟨by decide, by decide⟩,
    c9_title_independence lib4 lib4alt 3 2 (by decide) (by decide)⟩

end MagicBooks
